import Mathlib

/-!
Verification of the TALLSorts training and prediction pipeline
(src/TALLSorts/tallsorts.py), shallowly embedded in Lean.

Conventions of the embedding:
* pandas DataFrames become structures carrying their row labels, column
  labels and a value function;
* Python dicts become association lists with first-key-wins lookup and
  overwrite-on-assignment update;
* Python exceptions and the message-plus-sys.exit error pattern both become
  Except values, so a fatal validation failure is an Except.error;
* numeric values are exact rationals.
-/

namespace TALLSortsProof

instance {E A : Type} [DecidableEq E] [DecidableEq A] : DecidableEq (Except E A) :=
  fun a b =>
    match a, b with
    | .ok x, .ok y =>
      if h : x = y then isTrue (by rw [h]) else isFalse (fun hc => h (Except.ok.inj hc))
    | .error x, .error y =>
      if h : x = y then isTrue (by rw [h]) else isFalse (fun hc => h (Except.error.inj hc))
    | .ok _, .error _ => isFalse (fun hc => Except.noConfusion hc)
    | .error _, .ok _ => isFalse (fun hc => Except.noConfusion hc)

/-- Runs an Except-valued action on each element of a list in order, stopping
at the first error: the embedding of a Python for loop whose body may raise
or call sys.exit. -/
def forEachM {α E : Type} (l : List α) (f : α → Except E Unit) : Except E Unit :=
  match l with
  | [] => .ok ()
  | a :: rest =>
    match f a with
    | .ok _ => forEachM rest f
    | .error e => .error e

theorem forEachM_ok_iff {α E : Type} (l : List α) (f : α → Except E Unit) :
    forEachM l f = .ok () ↔ ∀ a ∈ l, f a = .ok () := by
  induction l with
  | nil => simp [forEachM]
  | cons a rest ih =>
    constructor
    · intro h b hb
      cases hfa : f a with
      | ok u =>
        cases u
        rw [forEachM, hfa] at h
        rcases List.mem_cons.mp hb with rfl | hb
        · exact hfa
        · exact (ih.mp h) b hb
      | error e =>
        rw [forEachM, hfa] at h
        exact Except.noConfusion h
    · intro hall
      have hfa : f a = .ok () := hall a (.head _)
      rw [forEachM, hfa]
      exact ih.mpr (fun b hb => hall b (.tail _ hb))

theorem forEachM_error {α E : Type} (l : List α) (f : α → Except E Unit) (e : E) :
    forEachM l f = .error e → ∃ a ∈ l, f a = .error e := by
  induction l with
  | nil => simp [forEachM]
  | cons a rest ih =>
    intro h
    cases hfa : f a with
    | ok u =>
      cases u
      rw [forEachM, hfa] at h
      obtain ⟨b, hb, hfb⟩ := ih h
      exact ⟨b, .tail _ hb, hfb⟩
    | error e2 =>
      rw [forEachM, hfa] at h
      cases h
      exact ⟨a, .head _, hfa⟩

/-- If some element of the list fails, the loop stops with the error of some
failing element (the first one). -/
theorem forEachM_exists_error {α E : Type} (l : List α) (f : α → Except E Unit)
    (a : α) (ha : a ∈ l) (ea : E) (hfa : f a = .error ea) :
    ∃ e, forEachM l f = .error e ∧ ∃ b ∈ l, f b = .error e := by
  induction l with
  | nil => cases ha
  | cons c rest ih =>
    cases hfc : f c with
    | ok u =>
      cases u
      have ha' : a ∈ rest := by
        rcases List.mem_cons.mp ha with rfl | h
        · rw [hfc] at hfa; exact Except.noConfusion hfa
        · exact h
      obtain ⟨e, he, b, hb, hfb⟩ := ih ha'
      exact ⟨e, by rw [forEachM, hfc]; exact he, b, .tail _ hb, hfb⟩
    | error e2 =>
      exact ⟨e2, by rw [forEachM, hfc], c, .head _, hfc⟩

/-- Python builtin max over a list (raises on the empty list, hence Option). -/
def pyMaxN (l : List Nat) : Option Nat :=
  match l with
  | [] => none
  | x :: xs => some (xs.foldl max x)

/-- Python builtin min over a list of numbers (raises on empty, hence Option). -/
def pyMinQ (l : List ℚ) : Option ℚ :=
  match l with
  | [] => none
  | x :: xs => some (xs.foldl min x)

/-- Python builtin min over a list of counts (raises on empty, hence Option). -/
def pyMinN (l : List Nat) : Option Nat :=
  match l with
  | [] => none
  | x :: xs => some (xs.foldl min x)

theorem le_foldl_max (l : List Nat) (a : Nat) : a ≤ l.foldl max a := by
  induction l generalizing a with
  | nil => simp
  | cons x xs ih => exact le_trans (Nat.le_max_left a x) (ih (max a x))

theorem foldl_max_ge (l : List Nat) (a : Nat) : ∀ x ∈ l, x ≤ l.foldl max a := by
  induction l generalizing a with
  | nil => intro x hx; cases hx
  | cons y ys ih =>
    intro x hx
    rcases List.mem_cons.mp hx with rfl | hx'
    · exact le_trans (Nat.le_max_right a x) (le_foldl_max ys (max a x))
    · exact ih (max a y) x hx'

theorem pyMaxN_ge (l : List Nat) (m : Nat) (h : pyMaxN l = some m) :
    ∀ x ∈ l, x ≤ m := by
  match l with
  | [] => exact Option.noConfusion h
  | y :: ys =>
    rw [pyMaxN] at h
    have hm : ys.foldl max y = m := Option.some.inj h
    subst hm
    intro x hx
    rcases List.mem_cons.mp hx with rfl | hx'
    · exact le_foldl_max ys x
    · exact foldl_max_ge ys y x hx'

/-- Returns the first element that occurs again later in the list, if any:
used to embed the pandas value-counts duplicate detection (the Python code
reports some duplicated label; which one is reported is irrelevant to the
claims). -/
def firstDup : List String → Option String
  | [] => none
  | x :: xs => if x ∈ xs then some x else firstDup xs

theorem firstDup_eq_none_iff (l : List String) : firstDup l = none ↔ l.Nodup := by
  induction l with
  | nil => simp [firstDup]
  | cons x xs ih =>
    rw [firstDup]
    by_cases hx : x ∈ xs
    · simp [hx]
    · simp [hx, ih]

/-! ## Hierarchy table validation: check_hierarchy (tallsorts.py lines 652-665)

The hierarchy file becomes a structure holding the non-index column titles
and the rows, each row a pair of an index label (its first column) and an
optional parent entry (none embeds an empty or NaN, i.e. falsy, cell). -/

structure HierarchyTable where
  cols : List String
  rows : List (String × Option String)

/-- Index of the hierarchy DataFrame: the first column of each row. -/
def HierarchyTable.labels (h : HierarchyTable) : List String :=
  h.rows.map Prod.fst

inductive StructuralError
  | missingParentColumn
  | duplicateLabel (l : String)
  | danglingParent (p : String)
  deriving DecidableEq

/-- Embedding of check_hierarchy: missing Parent column, then duplicated
index labels, then parent entries that do not exist as labels; each failure
prints a message and exits, embedded as an error value. -/
def check_hierarchy (h : HierarchyTable) : Except StructuralError Unit :=
  if "Parent" ∉ h.cols then .error .missingParentColumn
  else
    match firstDup h.labels with
    | some l => .error (.duplicateLabel l)
    | none =>
      forEachM h.rows (fun r =>
        match r.2 with
        | none => .ok ()
        | some p => if p ∈ h.labels then .ok () else .error (.danglingParent p))

theorem check_hierarchy_ok_iff (h : HierarchyTable) :
    check_hierarchy h = .ok () ↔
      ("Parent" ∈ h.cols ∧ h.labels.Nodup ∧
        ∀ r ∈ h.rows, ∀ p, r.2 = some p → p ∈ h.labels) := by
  rw [check_hierarchy]
  by_cases hp : "Parent" ∈ h.cols
  · rw [if_neg (not_not_intro hp)]
    cases hdup : firstDup h.labels with
    | some l =>
      have hnod : ¬ h.labels.Nodup := by
        intro hnd
        rw [← firstDup_eq_none_iff] at hnd
        rw [hnd] at hdup
        exact Option.noConfusion hdup
      constructor
      · intro hco; exact Except.noConfusion hco
      · rintro ⟨_, hnd, _⟩; exact absurd hnd hnod
    | none =>
      have hnd : h.labels.Nodup := (firstDup_eq_none_iff h.labels).mp hdup
      rw [forEachM_ok_iff]
      constructor
      · intro hall
        refine ⟨hp, hnd, fun r hr p hp2 => ?_⟩
        have hthis := hall r hr
        rw [hp2] at hthis
        by_contra hmem
        simp [hmem] at hthis
      · rintro ⟨_, _, hall⟩ r hr
        cases hr2 : r.2 with
        | none => rfl
        | some p => exact if_pos (hall r hr p hr2)
  · rw [if_pos hp]
    constructor
    · intro hco; exact Except.noConfusion hco
    · rintro ⟨hc, _, _⟩; exact absurd hc hp

/-- Claim C3: check_hierarchy fails fatally exactly when the Parent column is
absent, some label is duplicated, or some non-empty parent entry names a
missing label; a table with none of these defects passes. Stated as: passing
is equivalent to the absence of all three defects. -/
theorem C3_check_hierarchy_defects (h : HierarchyTable) :
    check_hierarchy h = .ok () ↔
      ¬ ("Parent" ∉ h.cols ∨ ¬ h.labels.Nodup ∨
         ∃ r ∈ h.rows, ∃ p, r.2 = some p ∧ p ∉ h.labels) := by
  rw [check_hierarchy_ok_iff]
  constructor
  · rintro ⟨h1, h2, h3⟩ (hc | hc | ⟨r, hr, p, hp2, hpm⟩)
    · exact hc h1
    · exact hc h2
    · exact hpm (h3 r hr p hp2)
  · intro hno
    push_neg at hno
    obtain ⟨h1, h2, h3⟩ := hno
    exact ⟨h1, h2, fun r hr p hp2 => h3 r hr p hp2⟩

/-- Hierarchy table with a parent cycle: label A has parent B and label B has
parent A, both present as labels, no duplicates, Parent column present. -/
def cyclicTable : HierarchyTable :=
  { cols := ["Parent"], rows := [("A", some "B"), ("B", some "A")] }

/-- Claim C2 counterexample: the cyclic table (A's parent is B and B's parent
is A, both present as labels) is accepted by check_hierarchy instead of
raising a StructuralError. -/
theorem C2_cyclic_table_accepted :
    check_hierarchy cyclicTable = .ok () ∧
      cyclicTable.rows = [("A", some "B"), ("B", some "A")] :=
  ⟨rfl, rfl⟩

/-- Boolean test that every non-empty parent entry exists as a label
(decidable form, for concrete evaluation). -/
def parentsPresent (h : HierarchyTable) : Bool :=
  h.rows.all (fun r =>
    match r.2 with
    | none => true
    | some p => decide (p ∈ h.labels))

theorem parentsPresent_spec (h : HierarchyTable) (hb : parentsPresent h = true) :
    ∀ r ∈ h.rows, ∀ p, r.2 = some p → p ∈ h.labels := by
  intro r hr p hp2
  have hall := List.all_eq_true.mp hb r hr
  rw [hp2] at hall
  exact of_decide_eq_true hall

/-- Claim C2 (amended): check_hierarchy does not detect cycles. Any hierarchy
table with the Parent column present, no duplicated label and every parent
entry present as a label passes validation, whether or not the parent
references form a cycle. -/
theorem C2_no_cycle_detection (h : HierarchyTable)
    (hp : "Parent" ∈ h.cols) (hnd : h.labels.Nodup)
    (hpar : parentsPresent h = true) :
    check_hierarchy h = .ok () :=
  (check_hierarchy_ok_iff h).mpr ⟨hp, hnd, parentsPresent_spec h hpar⟩

/-- Claim C2 witness: the amended statement applied to the concrete cyclic
table. -/
theorem C2_no_cycle_detection_witness : check_hierarchy cyclicTable = .ok () :=
  C2_no_cycle_detection cyclicTable (by decide) (by decide) (by decide)

/-! ## Python dict as an association list -/

/-- First-key-wins lookup, the embedding of a Python dict read d[k]. -/
def dictLookup {β : Type} : List (String × β) → String → Option β
  | [], _ => none
  | e :: rest, k => if e.1 = k then some e.2 else dictLookup rest k

theorem dictLookup_mem {β : Type} (d : List (String × β)) (k : String) (v : β)
    (h : dictLookup d k = some v) : (k, v) ∈ d := by
  induction d with
  | nil => exact Option.noConfusion h
  | cons e rest ih =>
    rw [dictLookup] at h
    by_cases he : e.1 = k
    · rw [if_pos he] at h
      have hv : e.2 = v := Option.some.inj h
      rw [← he, ← hv]
      exact .head _
    · rw [if_neg he] at h
      exact .tail _ (ih h)

/-! ## run(): NaN filling before dispatch (tallsorts.py lines 90-99)

The sample-by-feature DataFrame becomes a structure with row labels, column
labels and an Option-valued entry function, none embedding a NaN cell. -/

structure OptMatrix where
  samples : List String
  genes : List String
  val : String → String → Option ℚ

/-- Embedding of ui.samples.fillna(0): every NaN entry becomes 0, present
entries are unchanged. The result is still a DataFrame, hence still
Option-valued. -/
def fillna0 (m : OptMatrix) : OptMatrix :=
  { m with val := fun s g => some ((m.val s g).getD 0) }

inductive Mode
  | train
  | test
  deriving DecidableEq

/-- Embedding of run() restricted to its data flow: the samples matrix is
NaN-filled (line 91) and the result, paired with the unchanged mode, is what
the dispatch passes to run_predictions (test) or fit_classifier (train). -/
def run (mode : Mode) (samples : OptMatrix) : Mode × OptMatrix :=
  (mode, fillna0 samples)

/-- Claim C8: in run(), before either training or prediction is dispatched,
every missing (NaN) entry of the sample-by-feature matrix is replaced by
zero; the matrix passed downstream has no missing value and agrees with the
input at every present entry. -/
theorem C8_run_fillna (mode : Mode) (m : OptMatrix) (s g : String) :
    (((run mode m).2.val s g).isSome = true) ∧
      (∀ v, m.val s g = some v → (run mode m).2.val s g = some v) ∧
      (m.val s g = none → (run mode m).2.val s g = some 0) := by
  refine ⟨rfl, ?_, ?_⟩
  · intro v hv
    show some ((m.val s g).getD 0) = some v
    rw [hv]
    rfl
  · intro hv
    show some ((m.val s g).getD 0) = some 0
    rw [hv]
    rfl

/-- Concrete matrix with one present and one missing entry. -/
def exMatrix8 : OptMatrix :=
  { samples := ["s1"], genes := ["g1", "g2"],
    val := fun _ g => if g = "g1" then some 5 else none }

/-- Claim C8 witness: the fill applied to a concrete matrix, for both a
missing and a present entry, on the training dispatch path. -/
theorem C8_run_fillna_witness :
    (run Mode.train exMatrix8).2.val "s1" "g2" = some 0 ∧
      (run Mode.train exMatrix8).2.val "s1" "g1" = some 5 :=
  ⟨(C8_run_fillna Mode.train exMatrix8 "s1" "g2").2.2 rfl,
   (C8_run_fillna Mode.train exMatrix8 "s1" "g1").2.1 5 rfl⟩

/-! ## gen_multicall_csv (tallsorts.py lines 188-201)

The CSV file becomes a list of rows of cells; an Except.error embeds an
uncaught Python exception; a returned none embeds the early return that
opens no file. -/

inductive Cell
  | txt (s : String)
  | num (q : ℚ)
  deriving DecidableEq

/-- Python round(x, 3); ties are modeled half-up rather than half-to-even,
which no claim depends on. -/
def round3 (x : ℚ) : ℚ := (round (x * 1000) : ℚ) / 1000

/-- Header row: one empty cell then call_k / proba pairs up to the maximum
per-sample call count. -/
def multicallHeader (m : Nat) : List Cell :=
  Cell.txt "" ::
    ((List.range m).map (fun k => [Cell.txt ("call_" ++ toString (k + 1)), Cell.txt "proba"])).flatten

/-- One data row: the sample, then its calls with rounded probabilities,
padded with empty cells (Python range of a negative number is empty, matching
truncated Nat subtraction). -/
def multicallRow (multi_calls : List (String × List (String × ℚ))) (m : Nat)
    (sample : String) : List Cell :=
  let to_write := Cell.txt sample ::
    (((dictLookup multi_calls sample).getD []).map
      (fun c => [Cell.txt c.1, Cell.num (round3 c.2)])).flatten
  to_write ++ List.replicate (2 * m - to_write.length) (Cell.txt "")

/-- Embedding of gen_multicall_csv: on an empty mapping it returns None
without opening a file (result ok none); otherwise it takes the max of the
per-sample call counts (Python max raises on an empty sequence, embedded as
the error case) and writes header plus one row per sample. -/
def gen_multicall_csv (multi_calls : List (String × List (String × ℚ)))
    (sample_order : List String) : Except String (Option (List (List Cell))) :=
  if multi_calls.isEmpty then .ok none
  else
    match pyMaxN (multi_calls.map (fun p => p.2.length)) with
    | none => .error "max() arg is an empty sequence"
    | some m =>
      .ok (some (multicallHeader m :: sample_order.map (multicallRow multi_calls m)))

/-- Claim C10: gen_multicall_csv on an empty multi-calls mapping returns None
without writing any file, and the error branch of the max over per-sample
call counts is unreachable for every input. -/
theorem C10_gen_multicall_csv_total (multi_calls : List (String × List (String × ℚ)))
    (sample_order : List String) :
    (multi_calls = [] → gen_multicall_csv multi_calls sample_order = .ok none) ∧
      (∀ e, gen_multicall_csv multi_calls sample_order ≠ .error e) := by
  cases multi_calls with
  | nil =>
    constructor
    · intro _; rfl
    · intro e h; exact Except.noConfusion h
  | cons c rest =>
    constructor
    · intro h; exact List.noConfusion h
    · intro e h
      rw [gen_multicall_csv] at h
      simp only [List.isEmpty_cons, if_false] at h
      rw [List.map_cons, pyMaxN] at h
      exact Except.noConfusion h

/-- Claim C10 witness: the empty mapping with a nonempty sample order. -/
theorem C10_gen_multicall_csv_witness :
    gen_multicall_csv [] ["s1"] = .ok none :=
  (C10_gen_multicall_csv_total [] ["s1"]).1 rfl

/-! ## filter_genes, annotation-based steps (tallsorts.py lines 742-758)

The pyensembl annotation becomes a finite table from gene id to contig and
biotype, plus the gene id that genes_by_name("XIST")[0] resolves to. -/

structure EnsemblData where
  genes : List (String × String × String)
  xistId : String

/-- Embedding of ensembl_data.gene_by_id: the (contig, biotype) pair of the
gene, none when the id raises a lookup error. -/
def EnsemblData.geneById (a : EnsemblData) (g : String) : Option (String × String) :=
  dictLookup a.genes g

def EnsemblData.contigOf (a : EnsemblData) (g : String) : Option String :=
  (a.geneById g).map Prod.fst

def EnsemblData.biotypeOf (a : EnsemblData) (g : String) : Option String :=
  (a.geneById g).map Prod.snd

/-- Embedding of ensembl_data.gene_ids(contig="Y") plus the XIST gene id. -/
def EnsemblData.yGenes (a : EnsemblData) : List String :=
  (a.genes.filter (fun e => decide (e.2.1 = "Y"))).map Prod.fst ++ [a.xistId]

/-- Embedding of the annotation-based filtering steps of filter_genes: drop
ids not in the annotation, drop Y-chromosome ids and the XIST id, keep only
protein_coding biotypes, drop mitochondrial (contig MT) ids. -/
def annotation_filter (a : EnsemblData) (candidates : List String) : List String :=
  let not_found := candidates.filter (fun g => (a.geneById g).isNone)
  let c1 := candidates.filter (fun g => decide (g ∉ not_found))
  let c2 := c1.filter (fun g => decide (g ∉ a.yGenes))
  let c3 := c2.filter (fun g => decide (a.biotypeOf g = some "protein_coding"))
  let mt := c3.filter (fun g => decide (a.contigOf g = some "MT"))
  c3.filter (fun g => decide (g ∉ mt))

/-- Claim C7 (amended): after the annotation-based filtering steps, every
surviving feature came from the candidate list, is not on the Y chromosome,
is not the fixed escape gene (XIST), is protein_coding, and is not
mitochondrial. Features on the X chromosome are not removed (see the
counterexample). -/
theorem C7_annotation_filter_no_y (a : EnsemblData) (candidates : List String)
    (g : String) (hg : g ∈ annotation_filter a candidates) :
    g ∈ candidates ∧ a.contigOf g ≠ some "Y" ∧ g ≠ a.xistId ∧
      a.biotypeOf g = some "protein_coding" ∧ a.contigOf g ≠ some "MT" := by
  rw [annotation_filter] at hg
  simp only [List.mem_filter, decide_eq_true_iff] at hg
  obtain ⟨⟨⟨⟨hcand, hfound⟩, hy⟩, hbio⟩, hmt⟩ := hg
  refine ⟨hcand, ?_, ?_, hbio, ?_⟩
  · intro hcontig
    apply hy
    obtain ⟨pr, hpr, hfst⟩ : ∃ pr, a.geneById g = some pr ∧ pr.1 = "Y" := by
      rcases hlook : a.geneById g with _ | pr
      · rw [EnsemblData.contigOf, hlook] at hcontig
        exact Option.noConfusion hcontig
      · rw [EnsemblData.contigOf, hlook] at hcontig
        exact ⟨pr, rfl, Option.some.inj hcontig⟩
    have hmem : (g, pr) ∈ a.genes := dictLookup_mem a.genes g pr hpr
    apply List.mem_append_left
    apply List.mem_map.mpr
    refine ⟨(g, pr), ?_, rfl⟩
    apply List.mem_filter.mpr
    exact ⟨hmem, decide_eq_true hfst⟩
  · intro hx
    apply hy
    apply List.mem_append_right
    rw [hx]
    exact .head _
  · intro hcontig
    exact hmt ⟨⟨⟨⟨hcand, hfound⟩, hy⟩, hbio⟩, hcontig⟩

/-- Concrete annotation with a protein-coding gene on the X chromosome. -/
def annX : EnsemblData :=
  { genes := [("GX", ("X", "protein_coding"))], xistId := "XISTID" }

/-- Claim C7 counterexample: the X-chromosome protein-coding gene GX survives
all annotation-based filtering steps, so the surviving set does contain a
feature located on a sex chromosome. -/
theorem C7_x_gene_survives :
    annotation_filter annX ["GX"] = ["GX"] ∧ annX.contigOf "GX" = some "X" :=
  ⟨rfl, rfl⟩

/-- Claim C7 witness: the amended statement evaluated on the concrete
annotation and candidate list. -/
theorem C7_annotation_filter_witness :
    "GX" ∈ ["GX"] ∧ annX.contigOf "GX" ≠ some "Y" ∧ "GX" ≠ annX.xistId ∧
      annX.biotypeOf "GX" = some "protein_coding" ∧ annX.contigOf "GX" ≠ some "MT" :=
  C7_annotation_filter_no_y annX ["GX"] "GX" (by decide)

/-! ## check_training_inputs (tallsorts.py lines 668-703)

The sample sheet becomes index (samples), columns (labels) and a value
function; the subtypeObjects dict (built by genSubtypeObjsFromHierarchy,
outside this file) becomes an association list from label to an object
carrying its integer level and optional parent label. -/

structure SampleSheet where
  index : List String
  columns : List String
  val : String → String → ℚ

structure SubtypeObj where
  level : Nat
  parent : Option String
  deriving DecidableEq

abbrev SubtypeMap := List (String × SubtypeObj)

def lookupObj (objs : SubtypeMap) (l : String) : Option SubtypeObj :=
  dictLookup objs l

/-- The label of subtypeObjects[l].parent, when l exists and has a parent. -/
def parentOf (objs : SubtypeMap) (l : String) : Option String :=
  (lookupObj objs l).bind (fun o => o.parent)

inductive CheckErr
  | sampleNotInSheet (s : String)
  | duplicateSheetLabel (l : String)
  | labelNotInHierarchy (l : String)
  | ancestorViolation (sample label parent : String)
  | keyError (l : String)
  | emptyMax
  deriving DecidableEq

/-- Embedding of true_classifications[true_classifications > 0.5].index: the
labels for which the sample's sheet entry exceeds one half. -/
def positiveLabels (sheet : SampleSheet) (sample : String) : List String :=
  sheet.columns.filter (fun l => decide (mkRat 1 2 < sheet.val sample l))

/-- Embedding of max([subtypeObjects[i].level for i in subtypeObjects]). -/
def maxLevel (objs : SubtypeMap) : Option Nat :=
  pyMaxN (objs.map (fun e => e.2.level))

/-- Embedding of the inner for-level-in-range(max_levels) loop of
check_training_inputs: walk from cur up the parent chain at most fuel steps,
stopping at a root, and fail on the first parent not positive for the
sample. A missing key is a Python KeyError, embedded as an error. -/
def ancestorWalk (objs : SubtypeMap) (positive : List String) (sample : String) :
    String → Nat → Except CheckErr Unit
  | _, 0 => .ok ()
  | cur, fuel + 1 =>
    match lookupObj objs cur with
    | none => .error (.keyError cur)
    | some o =>
      match o.parent with
      | none => .ok ()
      | some p =>
        if p ∈ positive then ancestorWalk objs positive sample p fuel
        else .error (.ancestorViolation sample cur p)

/-- Embedding of check_training_inputs: counts-matrix samples must appear in
the sample sheet; sheet labels must be unique; sheet labels must be in the
hierarchy; then the ancestor-positivity walk for every sample and every
positive label. -/
def check_training_inputs (Xindex : List String) (sheet : SampleSheet)
    (objs : SubtypeMap) : Except CheckErr Unit :=
  match forEachM Xindex (fun s =>
      if s ∈ sheet.index then .ok () else .error (.sampleNotInSheet s)) with
  | .error e => .error e
  | .ok _ =>
    match firstDup sheet.columns with
    | some l => .error (.duplicateSheetLabel l)
    | none =>
      match forEachM sheet.columns (fun l =>
          if (lookupObj objs l).isSome then .ok () else .error (.labelNotInHierarchy l)) with
      | .error e => .error e
      | .ok _ =>
        match maxLevel objs with
        | none => .error .emptyMax
        | some maxLevels =>
          forEachM sheet.index (fun sample =>
            forEachM (positiveLabels sheet sample) (fun label =>
              ancestorWalk objs (positiveLabels sheet sample) sample label maxLevels))

/-- Parent chain of a label, followed for at most fuel steps: the ancestors
of the label in the hierarchy (complete once fuel is at least the label's
level, see ancestorWalk_ok_iff). -/
def ancestorChain (objs : SubtypeMap) : String → Nat → List String
  | _, 0 => []
  | l, fuel + 1 =>
    match parentOf objs l with
    | none => []
    | some p => p :: ancestorChain objs p fuel

/-- Well-formedness of one subtypeObjects entry: its parent, if any, exists
and sits exactly one level above. -/
def wfEntry (objs : SubtypeMap) (e : String × SubtypeObj) : Bool :=
  e.2.parent.all (fun p =>
    match dictLookup objs p with
    | none => false
    | some o2 => decide (o2.level + 1 = e.2.level))

/-- Well-formedness of the whole subtypeObjects map, as produced from a valid
hierarchy: every parent reference resolves and levels increase by one along
parent edges. -/
def wfHierarchyB (objs : SubtypeMap) : Bool :=
  objs.all (wfEntry objs)

theorem wfHierarchyB_spec (objs : SubtypeMap) (hb : wfHierarchyB objs = true) :
    ∀ e ∈ objs, ∀ p, e.2.parent = some p →
      ∃ o2, lookupObj objs p = some o2 ∧ o2.level + 1 = e.2.level := by
  intro e he p hp2
  have hall := List.all_eq_true.mp hb e he
  rw [wfEntry, hp2] at hall
  simp only [Option.all_some] at hall
  cases hlook : dictLookup objs p with
  | none => rw [hlook] at hall; simp at hall
  | some o2 =>
    rw [hlook] at hall
    simp only [decide_eq_true_eq] at hall
    exact ⟨o2, hlook, hall⟩

theorem level_le_maxLevel (objs : SubtypeMap) (M : Nat) (hmax : maxLevel objs = some M)
    (l : String) (o : SubtypeObj) (hl : lookupObj objs l = some o) : o.level ≤ M := by
  have hmem : (l, o) ∈ objs := dictLookup_mem objs l o hl
  exact pyMaxN_ge _ M hmax o.level (List.mem_map.mpr ⟨(l, o), hmem, rfl⟩)

/-- With enough fuel, the walk succeeds exactly when every ancestor in the
chain is positive for the sample. -/
theorem ancestorWalk_ok_iff (objs : SubtypeMap) (pos : List String) (sample : String)
    (hwf : wfHierarchyB objs = true) :
    ∀ (fuel : Nat) (cur : String) (o : SubtypeObj),
      lookupObj objs cur = some o → o.level ≤ fuel →
      (ancestorWalk objs pos sample cur fuel = .ok () ↔
        ∀ a ∈ ancestorChain objs cur fuel, a ∈ pos) := by
  intro fuel
  induction fuel with
  | zero =>
    intro cur o _ _
    simp [ancestorWalk, ancestorChain]
  | succ fuel ih =>
    intro cur o hl hle
    have hparent : parentOf objs cur = o.parent := by rw [parentOf, hl]; rfl
    cases hp : o.parent with
    | none =>
      rw [show ancestorWalk objs pos sample cur (fuel + 1) = .ok () by
        simp [ancestorWalk, hl, hp]]
      rw [show ancestorChain objs cur (fuel + 1) = [] by
        simp [ancestorChain, hparent, hp]]
      simp
    | some p =>
      obtain ⟨o2, hl2, hlev⟩ :=
        wfHierarchyB_spec objs hwf (cur, o) (dictLookup_mem objs cur o hl) p hp
      have hlev2 : o2.level + 1 = o.level := hlev
      have hle2 : o2.level ≤ fuel := by omega
      rw [show ancestorChain objs cur (fuel + 1) = p :: ancestorChain objs p fuel by
        simp [ancestorChain, hparent, hp]]
      by_cases hpp : p ∈ pos
      · rw [show ancestorWalk objs pos sample cur (fuel + 1) =
            ancestorWalk objs pos sample p fuel by
          simp [ancestorWalk, hl, hp, hpp]]
        rw [ih p o2 hl2 hle2]
        simp [List.forall_mem_cons, hpp]
      · rw [show ancestorWalk objs pos sample cur (fuel + 1) =
            .error (.ancestorViolation sample cur p) by
          simp [ancestorWalk, hl, hp, hpp]]
        constructor
        · intro hco; exact Except.noConfusion hco
        · intro hall; exact absurd (hall p (.head _)) hpp

/-- When the walk fails, the error is an ancestor violation naming the sample
and a genuinely violating label: a label positive for the sample whose parent
is not. -/
theorem ancestorWalk_error_spec (objs : SubtypeMap) (pos : List String) (sample : String)
    (hwf : wfHierarchyB objs = true) :
    ∀ (fuel : Nat) (cur : String) (o : SubtypeObj) (e : CheckErr),
      lookupObj objs cur = some o → cur ∈ pos →
      ancestorWalk objs pos sample cur fuel = .error e →
      ∃ c p, e = .ancestorViolation sample c p ∧ c ∈ pos ∧
        parentOf objs c = some p ∧ p ∉ pos := by
  intro fuel
  induction fuel with
  | zero =>
    intro cur o e _ _ hco
    exact Except.noConfusion hco
  | succ fuel ih =>
    intro cur o e hl hcur hwalk
    cases hp : o.parent with
    | none =>
      rw [show ancestorWalk objs pos sample cur (fuel + 1) = .ok () by
        simp [ancestorWalk, hl, hp]] at hwalk
      exact Except.noConfusion hwalk
    | some p =>
      obtain ⟨o2, hl2, _⟩ :=
        wfHierarchyB_spec objs hwf (cur, o) (dictLookup_mem objs cur o hl) p hp
      by_cases hpp : p ∈ pos
      · rw [show ancestorWalk objs pos sample cur (fuel + 1) =
            ancestorWalk objs pos sample p fuel by
          simp [ancestorWalk, hl, hp, hpp]] at hwalk
        exact ih p o2 e hl2 hpp hwalk
      · rw [show ancestorWalk objs pos sample cur (fuel + 1) =
            .error (.ancestorViolation sample cur p) by
          simp [ancestorWalk, hl, hp, hpp]] at hwalk
        have he : CheckErr.ancestorViolation sample cur p = e := Except.error.inj hwalk
        refine ⟨cur, p, he.symm, hcur, ?_, hpp⟩
        rw [parentOf, hl]
        simp [hp]

/-- Ancestor positivity of a sample sheet against the hierarchy: every sample
positive for a label is positive for every ancestor of that label. -/
@[reducible] def AncestorPositive (sheet : SampleSheet) (objs : SubtypeMap) (maxLevels : Nat) : Prop :=
  ∀ sample ∈ sheet.index, ∀ label ∈ positiveLabels sheet sample,
    ∀ a ∈ ancestorChain objs label maxLevels, a ∈ positiveLabels sheet sample

theorem positiveLabels_subset (sheet : SampleSheet) (sample label : String)
    (h : label ∈ positiveLabels sheet sample) : label ∈ sheet.columns :=
  (List.mem_filter.mp h).1

/-- Claim C1: under a well-formed hierarchy and a sheet passing the earlier
consistency checks, check_training_inputs succeeds exactly when the sheet is
ancestor-positive, and on failure the error is an ancestor violation naming
the offending sample and a label positive for it whose parent is not. The
check runs in fit_classifier before any scaler or classifier is fitted
(tallsorts.py lines 580-608). -/
theorem C1_ancestor_positivity_check (Xindex : List String) (sheet : SampleSheet)
    (objs : SubtypeMap) (maxLevels : Nat)
    (hwf : wfHierarchyB objs = true)
    (hX : ∀ s ∈ Xindex, s ∈ sheet.index)
    (hdup : sheet.columns.Nodup)
    (hcols : ∀ l ∈ sheet.columns, (lookupObj objs l).isSome = true)
    (hmax : maxLevel objs = some maxLevels) :
    (check_training_inputs Xindex sheet objs = .ok () ↔
      AncestorPositive sheet objs maxLevels) ∧
      (∀ e, check_training_inputs Xindex sheet objs = .error e →
        ∃ S L P, e = .ancestorViolation S L P ∧ S ∈ sheet.index ∧
          L ∈ positiveLabels sheet S ∧ parentOf objs L = some P ∧
          P ∉ positiveLabels sheet S) := by
  have h1 : forEachM Xindex (fun s =>
      if s ∈ sheet.index then .ok () else .error (CheckErr.sampleNotInSheet s)) = .ok () :=
    (forEachM_ok_iff _ _).mpr (fun s hs => if_pos (hX s hs))
  have h2 : firstDup sheet.columns = none := (firstDup_eq_none_iff _).mpr hdup
  have h3 : forEachM sheet.columns (fun l =>
      if (lookupObj objs l).isSome then .ok () else .error (CheckErr.labelNotInHierarchy l)) = .ok () :=
    (forEachM_ok_iff _ _).mpr (fun l hl => if_pos (hcols l hl))
  have hred : check_training_inputs Xindex sheet objs =
      forEachM sheet.index (fun sample =>
        forEachM (positiveLabels sheet sample) (fun label =>
          ancestorWalk objs (positiveLabels sheet sample) sample label maxLevels)) := by
    rw [check_training_inputs, h1, h2, h3, hmax]
  have hlook : ∀ sample : String, ∀ label ∈ positiveLabels sheet sample,
      ∃ o, lookupObj objs label = some o ∧ o.level ≤ maxLevels := by
    intro sample label hlab
    obtain ⟨o, ho⟩ := Option.isSome_iff_exists.mp
      (hcols label (positiveLabels_subset sheet sample label hlab))
    exact ⟨o, ho, level_le_maxLevel objs maxLevels hmax label o ho⟩
  constructor
  · rw [hred, forEachM_ok_iff]
    constructor
    · intro hall sample hs label hlab
      obtain ⟨o, ho, holev⟩ := hlook sample label hlab
      exact (ancestorWalk_ok_iff objs _ sample hwf maxLevels label o ho holev).mp
        ((forEachM_ok_iff _ _).mp (hall sample hs) label hlab)
    · intro hap sample hs
      rw [forEachM_ok_iff]
      intro label hlab
      obtain ⟨o, ho, holev⟩ := hlook sample label hlab
      exact (ancestorWalk_ok_iff objs _ sample hwf maxLevels label o ho holev).mpr
        (hap sample hs label hlab)
  · intro e he
    rw [hred] at he
    obtain ⟨sample, hs, he2⟩ := forEachM_error _ _ _ he
    obtain ⟨label, hlab, he3⟩ := forEachM_error _ _ _ he2
    obtain ⟨o, ho, _⟩ := hlook sample label hlab
    obtain ⟨c, p, hec, hcp, hpar, hnp⟩ :=
      ancestorWalk_error_spec objs _ sample hwf maxLevels label o e ho hlab he3
    exact ⟨sample, c, p, hec, hs, hcp, hpar, hnp⟩

/-- Hierarchy map for the witness: A at level 1, its child A1 at level 2. -/
def objsW : SubtypeMap := [("A", ⟨1, none⟩), ("A1", ⟨2, some "A"⟩)]

/-- Sheet for the witness: one sample positive for A and A1. -/
def sheetW : SampleSheet :=
  { index := ["s1"], columns := ["A", "A1"],
    val := fun _ l => if l = "A" then 1 else if l = "A1" then 1 else 0 }

/-- Claim C1 witness: a concrete ancestor-positive sheet passes the check. -/
theorem C1_ancestor_positivity_check_witness :
    check_training_inputs ["s1"] sheetW objsW = .ok () :=
  (C1_ancestor_positivity_check ["s1"] sheetW objsW 2 (by decide) (by decide)
    (by decide) (by decide) (by decide)).1.mpr (by decide)

/-- Claim C4 (amended): check_training_inputs verifies that every sample of
the counts matrix appears in the label sheet, aborting with an error naming
such a sample; the converse containment is not checked, so a sample present
only in the label sheet passes the pre-training checks (see the
counterexample). -/
theorem C4_counts_samples_checked (Xindex : List String) (sheet : SampleSheet)
    (objs : SubtypeMap) :
    (check_training_inputs Xindex sheet objs = .ok () → ∀ s ∈ Xindex, s ∈ sheet.index) ∧
      (∀ s ∈ Xindex, s ∉ sheet.index →
        ∃ t, check_training_inputs Xindex sheet objs = .error (.sampleNotInSheet t) ∧
          t ∈ Xindex ∧ t ∉ sheet.index) := by
  constructor
  · intro hok s hs
    by_contra hmem
    obtain ⟨e, he, _, _, _⟩ := forEachM_exists_error Xindex
      (fun s => if s ∈ sheet.index then .ok () else .error (CheckErr.sampleNotInSheet s))
      s hs (.sampleNotInSheet s) (if_neg hmem)
    rw [check_training_inputs, he] at hok
    exact Except.noConfusion hok
  · intro s hs hmem
    obtain ⟨e, he, b, hb, hfb⟩ := forEachM_exists_error Xindex
      (fun s => if s ∈ sheet.index then .ok () else .error (CheckErr.sampleNotInSheet s))
      s hs (.sampleNotInSheet s) (if_neg hmem)
    by_cases hbm : b ∈ sheet.index
    · rw [if_pos hbm] at hfb
      exact Except.noConfusion hfb
    · rw [if_neg hbm] at hfb
      have hee : e = .sampleNotInSheet b := (Except.error.inj hfb).symm
      refine ⟨b, ?_, hb, hbm⟩
      rw [hee] at he
      rw [check_training_inputs, he]

/-- Sheet for the C4 counterexample: sample s9 appears only in the label
sheet, negative everywhere. -/
def sheetC4 : SampleSheet :=
  { index := ["s1", "s9"], columns := ["A"],
    val := fun s _ => if s = "s1" then 1 else 0 }

def objsC4 : SubtypeMap := [("A", ⟨1, none⟩)]

/-- Claim C4 counterexample: a sample referenced only in the label sheet and
absent from the counts matrix does not make the pre-training consistency
checks fail; check_training_inputs accepts the input. -/
theorem C4_sheet_only_sample_accepted :
    check_training_inputs ["s1"] sheetC4 objsC4 = .ok () ∧
      "s9" ∈ sheetC4.index ∧ "s9" ∉ (["s1"] : List String) :=
  ⟨by decide, by decide, by decide⟩

/-- Sheet for the C4 witness: the counts matrix has a sample sX missing from
the label sheet. -/
def sheetC4w : SampleSheet :=
  { index := ["s1"], columns := ["A"], val := fun _ _ => 1 }

/-- Claim C4 witness: the checked direction fires on a concrete input,
naming the offending sample. -/
theorem C4_counts_samples_checked_witness :
    check_training_inputs ["s1", "sX"] sheetC4w objsC4 =
      .error (.sampleNotInSheet "sX") := by
  obtain ⟨t, heq, hmemt, hnott⟩ :=
    (C4_counts_samples_checked ["s1", "sX"] sheetC4w objsC4).2 "sX" (by decide) (by decide)
  have ht : t = "sX" := by
    rcases List.mem_cons.mp hmemt with rfl | hm2
    · exact absurd (by decide : ("s1" : String) ∈ sheetC4w.index) hnott
    · exact List.mem_singleton.mp hm2
  rw [ht] at heq
  exact heq

/-! ## convert_symbols_to_ensembl (tallsorts.py lines 438-497)

The pyensembl genome becomes an oracle from an (uppercased) symbol to the
list of genes carrying that name, none embedding a lookup exception. The
first pass stores gene-id strings in the confirmed dict (z[0].gene_id); the
process-of-elimination passes store Gene objects (y[0]); in Python a Gene
object never equals a gene-id string, which the GeneVal type preserves. A
Gene object is represented by its gene id. -/

inductive GeneVal
  | idStr (s : String)
  | geneObj (g : String)
  deriving DecidableEq

structure Genome where
  genesByName : String → Option (List String)

/-- Python dict assignment d[k] = v: overwrite the slot of an existing key,
or append a new entry. -/
def dictSet {β : Type} (d : List (String × β)) (k : String) (v : β) :
    List (String × β) :=
  if d.any (fun e => decide (e.1 = k)) then
    d.map (fun e => if e.1 = k then (k, v) else e)
  else d ++ [(k, v)]

/-- Keys of a dict, in insertion order. -/
def dictKeys {β : Type} (d : List (String × β)) : List String :=
  d.map Prod.fst

theorem any_key_iff {β : Type} (d : List (String × β)) (k : String) :
    d.any (fun e => decide (e.1 = k)) = true ↔ k ∈ dictKeys d := by
  rw [List.any_eq_true, dictKeys]
  constructor
  · rintro ⟨e, he, hk⟩
    exact List.mem_map.mpr ⟨e, he, of_decide_eq_true hk⟩
  · intro hk
    obtain ⟨e, he, hek⟩ := List.mem_map.mp hk
    exact ⟨e, he, decide_eq_true hek⟩

theorem dictKeys_dictSet_eq {β : Type} (d : List (String × β)) (k : String) (v : β) :
    dictKeys (dictSet d k v) =
      if d.any (fun e => decide (e.1 = k)) then dictKeys d else dictKeys d ++ [k] := by
  rw [dictSet]
  by_cases hany : d.any (fun e => decide (e.1 = k)) = true
  · rw [if_pos hany, if_pos hany, dictKeys, dictKeys, List.map_map]
    refine List.map_congr_left (fun e _ => ?_)
    by_cases he : e.1 = k
    · simp [he]
    · simp [he]
  · rw [if_neg hany, if_neg hany, dictKeys, dictKeys, List.map_append]
    rfl

theorem mem_dictKeys_dictSet_self {β : Type} (d : List (String × β)) (k : String) (v : β) :
    k ∈ dictKeys (dictSet d k v) := by
  rw [dictKeys_dictSet_eq]
  by_cases hany : d.any (fun e => decide (e.1 = k)) = true
  · rw [if_pos hany]
    exact (any_key_iff d k).mp hany
  · rw [if_neg hany]
    exact List.mem_append_right _ (.head _)

theorem mem_dictKeys_dictSet_of_mem {β : Type} (d : List (String × β)) (k : String)
    (v : β) (i : String) (hi : i ∈ dictKeys d) : i ∈ dictKeys (dictSet d k v) := by
  rw [dictKeys_dictSet_eq]
  by_cases hany : d.any (fun e => decide (e.1 = k)) = true
  · rw [if_pos hany]; exact hi
  · rw [if_neg hany]; exact List.mem_append_left _ hi

theorem mem_dictKeys_dictSet_elim {β : Type} (d : List (String × β)) (k : String)
    (v : β) (i : String) (hi : i ∈ dictKeys (dictSet d k v)) :
    i ∈ dictKeys d ∨ i = k := by
  rw [dictKeys_dictSet_eq] at hi
  by_cases hany : d.any (fun e => decide (e.1 = k)) = true
  · rw [if_pos hany] at hi; exact Or.inl hi
  · rw [if_neg hany] at hi
    rcases List.mem_append.mp hi with h | h
    · exact Or.inl h
    · exact Or.inr (List.mem_singleton.mp h)

theorem dictKeys_dictSet_nodup {β : Type} (d : List (String × β)) (k : String) (v : β)
    (hnd : (dictKeys d).Nodup) : (dictKeys (dictSet d k v)).Nodup := by
  rw [dictKeys_dictSet_eq]
  by_cases hany : d.any (fun e => decide (e.1 = k)) = true
  · rw [if_pos hany]; exact hnd
  · rw [if_neg hany]
    have hk : k ∉ dictKeys d := fun hk => hany ((any_key_iff d k).mpr hk)
    rw [List.nodup_append]
    exact ⟨hnd, List.nodup_singleton k, by simpa using hk⟩

/-- First pass of convert_symbols_to_ensembl: a symbol whose lookup raises
goes to nonexistent, one with exactly one gene is confirmed with that gene id
(z[0].gene_id), any other goes to unconfirmed. -/
def initialLoop (env : Genome) :
    List String → List (String × GeneVal) → List String → List String →
      List (String × GeneVal) × List String × List String
  | [], confirmed, unconfirmed, nonexistent => (confirmed, unconfirmed, nonexistent)
  | i :: rest, confirmed, unconfirmed, nonexistent =>
    match env.genesByName i.toUpper with
    | none => initialLoop env rest confirmed unconfirmed (nonexistent ++ [i])
    | some z =>
      match z with
      | [g] => initialLoop env rest (dictSet confirmed i (.idStr g)) unconfirmed nonexistent
      | _ => initialLoop env rest confirmed (unconfirmed ++ [i]) nonexistent

/-- One pass of the process-of-elimination loop: for each unconfirmed symbol,
the genes carrying its name that are not already confirmed values; exactly
one candidate confirms the symbol (as a Gene object) and counts as fixed,
anything else keeps the symbol unconfirmed. Returns the updated dict, the
next unconfirmed list and the fixed count. -/
def elimPass (env : Genome) :
    List (String × GeneVal) → List String →
      List (String × GeneVal) × List String × Nat
  | confirmed, [] => (confirmed, [], 0)
  | confirmed, i :: rest =>
    match ((env.genesByName i.toUpper).getD []).filter
        (fun g => decide (GeneVal.geneObj g ∉ confirmed.map Prod.snd)) with
    | [g] =>
      ((elimPass env (dictSet confirmed i (.geneObj g)) rest).1,
       (elimPass env (dictSet confirmed i (.geneObj g)) rest).2.1,
       (elimPass env (dictSet confirmed i (.geneObj g)) rest).2.2 + 1)
    | _ =>
      ((elimPass env confirmed rest).1,
       i :: (elimPass env confirmed rest).2.1,
       (elimPass env confirmed rest).2.2)

theorem elimPass_length (env : Genome) :
    ∀ (unconfirmed : List String) (confirmed : List (String × GeneVal)),
      (elimPass env confirmed unconfirmed).2.1.length +
        (elimPass env confirmed unconfirmed).2.2 = unconfirmed.length := by
  intro unconfirmed
  induction unconfirmed with
  | nil => intro confirmed; rfl
  | cons i rest ih =>
    intro confirmed
    rw [elimPass]
    cases hy : ((env.genesByName i.toUpper).getD []).filter
        (fun g => decide (GeneVal.geneObj g ∉ confirmed.map Prod.snd)) with
    | nil =>
      dsimp only
      simp only [List.length_cons]
      have := ih confirmed
      omega
    | cons g tail =>
      cases tail with
      | nil =>
        dsimp only
        simp only [List.length_cons]
        have := ih (dictSet confirmed i (.geneObj g))
        omega
      | cons g2 t2 =>
        dsimp only
        simp only [List.length_cons]
        have := ih confirmed
        omega

/-- The while-fixed-greater-zero loop: run a pass; if it fixed anything, loop
on the new state. Terminates because a pass that fixes anything strictly
shrinks the unconfirmed list. -/
def elimLoop (env : Genome) (confirmed : List (String × GeneVal))
    (unconfirmed : List String) : List (String × GeneVal) × List String :=
  if _h : 0 < (elimPass env confirmed unconfirmed).2.2 then
    elimLoop env (elimPass env confirmed unconfirmed).1
      (elimPass env confirmed unconfirmed).2.1
  else
    ((elimPass env confirmed unconfirmed).1, (elimPass env confirmed unconfirmed).2.1)
termination_by unconfirmed.length
decreasing_by
  have := elimPass_length env unconfirmed confirmed
  omega

/-- Embedding of convert_symbols_to_ensembl: the first pass, then the
elimination loop, then nonexistent symbols are appended to the unconfirmed
list. -/
def convert_symbols_to_ensembl (env : Genome) (symb_list : List String) :
    List (String × GeneVal) × List String :=
  ((elimLoop env (initialLoop env symb_list [] [] []).1
      (initialLoop env symb_list [] [] []).2.1).1,
   (elimLoop env (initialLoop env symb_list [] [] []).1
      (initialLoop env symb_list [] [] []).2.1).2 ++
     (initialLoop env symb_list [] [] []).2.2)

theorem elimPass_spec (env : Genome) :
    ∀ (u : List String) (c : List (String × GeneVal)),
      (∀ i, (i ∈ dictKeys c ∨ i ∈ u) →
        (i ∈ dictKeys (elimPass env c u).1 ∨ i ∈ (elimPass env c u).2.1)) ∧
      (∀ x ∈ dictKeys (elimPass env c u).1, x ∈ dictKeys c ∨ x ∈ u) ∧
      (∀ x ∈ (elimPass env c u).2.1, x ∈ u) ∧
      ((dictKeys c).Nodup → (dictKeys (elimPass env c u).1).Nodup) := by
  intro u
  induction u with
  | nil =>
    intro c
    refine ⟨fun i hi => ?_, fun x hx => Or.inl hx,
      fun x hx => absurd hx (List.not_mem_nil x), fun h => h⟩
    rcases hi with hi | hi
    · exact Or.inl hi
    · cases hi
  | cons j rest ih =>
    intro c
    rw [elimPass]
    cases hy : ((env.genesByName j.toUpper).getD []).filter
        (fun g => decide (GeneVal.geneObj g ∉ c.map Prod.snd)) with
    | nil =>
      obtain ⟨ihcov, ihsub, ihu, ihnd⟩ := ih c
      refine ⟨fun i hi => ?_, fun x hx => ?_, fun x hx => ?_, fun hnd => ihnd hnd⟩
      · rcases hi with hi | hi
        · rcases ihcov i (Or.inl hi) with h | h
          · exact Or.inl h
          · exact Or.inr (.tail _ h)
        · rcases List.mem_cons.mp hi with rfl | hi
          · exact Or.inr (.head _)
          · rcases ihcov i (Or.inr hi) with h | h
            · exact Or.inl h
            · exact Or.inr (.tail _ h)
      · rcases ihsub x hx with h | h
        · exact Or.inl h
        · exact Or.inr (.tail _ h)
      · rcases List.mem_cons.mp hx with rfl | hx
        · exact .head _
        · exact .tail _ (ihu x hx)
    | cons g tail =>
      cases tail with
      | nil =>
        obtain ⟨ihcov, ihsub, ihu, ihnd⟩ := ih (dictSet c j (.geneObj g))
        refine ⟨fun i hi => ?_, fun x hx => ?_, fun x hx => .tail _ (ihu x hx),
          fun hnd => ihnd (dictKeys_dictSet_nodup c j _ hnd)⟩
        · rcases hi with hi | hi
          · exact ihcov i (Or.inl (mem_dictKeys_dictSet_of_mem c j _ i hi))
          · rcases List.mem_cons.mp hi with rfl | hi
            · exact ihcov i (Or.inl (mem_dictKeys_dictSet_self c i _))
            · exact ihcov i (Or.inr hi)
        · rcases ihsub x hx with h | h
          · rcases mem_dictKeys_dictSet_elim c j _ x h with h2 | h2
            · exact Or.inl h2
            · exact Or.inr (h2 ▸ .head _)
          · exact Or.inr (.tail _ h)
      | cons g2 t2 =>
        obtain ⟨ihcov, ihsub, ihu, ihnd⟩ := ih c
        refine ⟨fun i hi => ?_, fun x hx => ?_, fun x hx => ?_, fun hnd => ihnd hnd⟩
        · rcases hi with hi | hi
          · rcases ihcov i (Or.inl hi) with h | h
            · exact Or.inl h
            · exact Or.inr (.tail _ h)
          · rcases List.mem_cons.mp hi with rfl | hi
            · exact Or.inr (.head _)
            · rcases ihcov i (Or.inr hi) with h | h
              · exact Or.inl h
              · exact Or.inr (.tail _ h)
        · rcases ihsub x hx with h | h
          · exact Or.inl h
          · exact Or.inr (.tail _ h)
        · rcases List.mem_cons.mp hx with rfl | hx
          · exact .head _
          · exact .tail _ (ihu x hx)

theorem elimLoop_spec (env : Genome) :
    ∀ (n : Nat) (c : List (String × GeneVal)) (u : List String), u.length ≤ n →
      (∀ i, (i ∈ dictKeys c ∨ i ∈ u) →
        (i ∈ dictKeys (elimLoop env c u).1 ∨ i ∈ (elimLoop env c u).2)) ∧
      (∀ x ∈ dictKeys (elimLoop env c u).1, x ∈ dictKeys c ∨ x ∈ u) ∧
      (∀ x ∈ (elimLoop env c u).2, x ∈ u) ∧
      ((dictKeys c).Nodup → (dictKeys (elimLoop env c u).1).Nodup) := by
  intro n
  induction n with
  | zero =>
    intro c u hu
    have hu0 : u = [] := List.length_eq_zero.mp (Nat.le_zero.mp hu)
    subst hu0
    have hp : (elimPass env c []).2.2 = 0 := rfl
    rw [elimLoop, dif_neg (by omega)]
    exact elimPass_spec env [] c
  | succ n ih =>
    intro c u hu
    rw [elimLoop]
    by_cases hpos : 0 < (elimPass env c u).2.2
    · rw [dif_pos hpos]
      have hlen := elimPass_length env u c
      obtain ⟨pcov, psub, pu, pnd⟩ := elimPass_spec env u c
      obtain ⟨lcov, lsub, lu, lnd⟩ :=
        ih (elimPass env c u).1 (elimPass env c u).2.1 (by omega)
      refine ⟨fun i hi => lcov i (pcov i hi), fun x hx => ?_, fun x hx => pu x (lu x hx),
        fun hnd => lnd (pnd hnd)⟩
      rcases lsub x hx with h | h
      · exact psub x h
      · exact Or.inr (pu x h)
    · rw [dif_neg hpos]
      exact elimPass_spec env u c

theorem initialLoop_spec (env : Genome) :
    ∀ (symbs : List String) (c : List (String × GeneVal)) (u nx : List String),
      (∀ i, (i ∈ dictKeys c ∨ i ∈ u ∨ i ∈ nx ∨ i ∈ symbs) →
        (i ∈ dictKeys (initialLoop env symbs c u nx).1 ∨
          i ∈ (initialLoop env symbs c u nx).2.1 ∨
          i ∈ (initialLoop env symbs c u nx).2.2)) ∧
      (∀ x ∈ dictKeys (initialLoop env symbs c u nx).1, x ∈ dictKeys c ∨ x ∈ symbs) ∧
      (∀ x ∈ (initialLoop env symbs c u nx).2.1, x ∈ u ∨ x ∈ symbs) ∧
      ((dictKeys c).Nodup → (dictKeys (initialLoop env symbs c u nx).1).Nodup) := by
  intro symbs
  induction symbs with
  | nil =>
    intro c u nx
    refine ⟨fun i hi => ?_, fun x hx => Or.inl hx, fun x hx => Or.inl hx, fun h => h⟩
    rcases hi with hi | hi | hi | hi
    · exact Or.inl hi
    · exact Or.inr (Or.inl hi)
    · exact Or.inr (Or.inr hi)
    · cases hi
  | cons j rest ih =>
    intro c u nx
    rw [initialLoop]
    cases hz : env.genesByName j.toUpper with
    | none =>
      obtain ⟨ihcov, ihsub, ihu, ihnd⟩ := ih c u (nx ++ [j])
      refine ⟨fun i hi => ?_, fun x hx => ?_, fun x hx => ?_, ihnd⟩
      · rcases hi with hi | hi | hi | hi
        · exact ihcov i (Or.inl hi)
        · exact ihcov i (Or.inr (Or.inl hi))
        · exact ihcov i (Or.inr (Or.inr (Or.inl (List.mem_append_left _ hi))))
        · rcases List.mem_cons.mp hi with rfl | hi
          · exact ihcov i (Or.inr (Or.inr (Or.inl (List.mem_append_right _ (.head _)))))
          · exact ihcov i (Or.inr (Or.inr (Or.inr hi)))
      · rcases ihsub x hx with h | h
        · exact Or.inl h
        · exact Or.inr (.tail _ h)
      · rcases ihu x hx with h | h
        · exact Or.inl h
        · exact Or.inr (.tail _ h)
    | some z =>
      cases z with
      | nil =>
        obtain ⟨ihcov, ihsub, ihu, ihnd⟩ := ih c (u ++ [j]) nx
        refine ⟨fun i hi => ?_, fun x hx => ?_, fun x hx => ?_, ihnd⟩
        · rcases hi with hi | hi | hi | hi
          · exact ihcov i (Or.inl hi)
          · exact ihcov i (Or.inr (Or.inl (List.mem_append_left _ hi)))
          · exact ihcov i (Or.inr (Or.inr (Or.inl hi)))
          · rcases List.mem_cons.mp hi with rfl | hi
            · exact ihcov i (Or.inr (Or.inl (List.mem_append_right _ (.head _))))
            · exact ihcov i (Or.inr (Or.inr (Or.inr hi)))
        · rcases ihsub x hx with h | h
          · exact Or.inl h
          · exact Or.inr (.tail _ h)
        · rcases ihu x hx with h | h
          · rcases List.mem_append.mp h with h2 | h2
            · exact Or.inl h2
            · exact Or.inr ((List.mem_singleton.mp h2) ▸ .head _)
          · exact Or.inr (.tail _ h)
      | cons g tail =>
        cases tail with
        | nil =>
          obtain ⟨ihcov, ihsub, ihu, ihnd⟩ := ih (dictSet c j (.idStr g)) u nx
          refine ⟨fun i hi => ?_, fun x hx => ?_, fun x hx => ?_,
            fun hnd => ihnd (dictKeys_dictSet_nodup c j _ hnd)⟩
          · rcases hi with hi | hi | hi | hi
            · exact ihcov i (Or.inl (mem_dictKeys_dictSet_of_mem c j _ i hi))
            · exact ihcov i (Or.inr (Or.inl hi))
            · exact ihcov i (Or.inr (Or.inr (Or.inl hi)))
            · rcases List.mem_cons.mp hi with rfl | hi
              · exact ihcov i (Or.inl (mem_dictKeys_dictSet_self c i _))
              · exact ihcov i (Or.inr (Or.inr (Or.inr hi)))
          · rcases ihsub x hx with h | h
            · rcases mem_dictKeys_dictSet_elim c j _ x h with h2 | h2
              · exact Or.inl h2
              · exact Or.inr (h2 ▸ .head _)
            · exact Or.inr (.tail _ h)
          · rcases ihu x hx with h | h
            · exact Or.inl h
            · exact Or.inr (.tail _ h)
        | cons g2 t2 =>
          obtain ⟨ihcov, ihsub, ihu, ihnd⟩ := ih c (u ++ [j]) nx
          refine ⟨fun i hi => ?_, fun x hx => ?_, fun x hx => ?_, ihnd⟩
          · rcases hi with hi | hi | hi | hi
            · exact ihcov i (Or.inl hi)
            · exact ihcov i (Or.inr (Or.inl (List.mem_append_left _ hi)))
            · exact ihcov i (Or.inr (Or.inr (Or.inl hi)))
            · rcases List.mem_cons.mp hi with rfl | hi
              · exact ihcov i (Or.inr (Or.inl (List.mem_append_right _ (.head _))))
              · exact ihcov i (Or.inr (Or.inr (Or.inr hi)))
          · rcases ihsub x hx with h | h
            · exact Or.inl h
            · exact Or.inr (.tail _ h)
          · rcases ihu x hx with h | h
            · rcases List.mem_append.mp h with h2 | h2
              · exact Or.inl h2
              · exact Or.inr ((List.mem_singleton.mp h2) ▸ .head _)
            · exact Or.inr (.tail _ h)

theorem nodup_length_le_of_subset (l l' : List String) (hnd : l.Nodup)
    (hsub : ∀ x ∈ l, x ∈ l') : l.length ≤ l'.length := by
  have h1 : l.toFinset.card = l.length := List.toFinset_card_of_nodup hnd
  have h2 : l.toFinset ⊆ l'.toFinset := by
    intro x hx
    rw [List.mem_toFinset] at hx ⊢
    exact hsub x hx
  calc l.length = l.toFinset.card := h1.symm
    _ ≤ l'.toFinset.card := Finset.card_le_card h2
    _ ≤ l'.length := List.toFinset_card_le l'

/-- Claim C9: convert_symbols_to_ensembl terminates on every finite symbol
list (the elimination loop is well-founded: a pass with fixed greater than
zero strictly shrinks the unconfirmed list, see elimPass_length and the
termination measure of elimLoop), every input symbol ends up a key of the
confirmed mapping or an element of the unconfirmed list, and the confirmed
mapping has at most as many entries as the input list. -/
theorem C9_convert_symbols_covers (env : Genome) (symb_list : List String) :
    (∀ i ∈ symb_list,
      i ∈ dictKeys (convert_symbols_to_ensembl env symb_list).1 ∨
        i ∈ (convert_symbols_to_ensembl env symb_list).2) ∧
      (convert_symbols_to_ensembl env symb_list).1.length ≤ symb_list.length := by
  obtain ⟨icov, isub, iu, ind⟩ := initialLoop_spec env symb_list [] [] []
  obtain ⟨lcov, lsub, lu, lnd⟩ := elimLoop_spec env
    (initialLoop env symb_list [] [] []).2.1.length
    (initialLoop env symb_list [] [] []).1
    (initialLoop env symb_list [] [] []).2.1 (le_refl _)
  constructor
  · intro i hi
    rcases icov i (Or.inr (Or.inr (Or.inr hi))) with h | h | h
    · rcases lcov i (Or.inl h) with h2 | h2
      · exact Or.inl h2
      · exact Or.inr (List.mem_append_left _ h2)
    · rcases lcov i (Or.inr h) with h2 | h2
      · exact Or.inl h2
      · exact Or.inr (List.mem_append_left _ h2)
    · exact Or.inr (List.mem_append_right _ h)
  · have hnd : (dictKeys (convert_symbols_to_ensembl env symb_list).1).Nodup :=
      lnd (ind List.nodup_nil)
    have hsub : ∀ x ∈ dictKeys (convert_symbols_to_ensembl env symb_list).1,
        x ∈ symb_list := by
      intro x hx
      rcases lsub x hx with h | h
      · rcases isub x h with h2 | h2
        · cases h2
        · exact h2
      · rcases iu x h with h2 | h2
        · cases h2
        · exact h2
    have hlen : (dictKeys (convert_symbols_to_ensembl env symb_list).1).length ≤
        symb_list.length := nodup_length_le_of_subset _ _ hnd hsub
    rw [dictKeys, List.length_map] at hlen
    exact hlen

/-- Concrete genome with a single unambiguous symbol. -/
def env9 : Genome :=
  { genesByName := fun s => if s = "TAL1" then some ["ENSG00000162367"] else none }

/-- Claim C9 witness: the coverage conclusion applied to a concrete genome
and symbol list. -/
theorem C9_convert_symbols_covers_witness :
    "TAL1" ∈ dictKeys (convert_symbols_to_ensembl env9 ["TAL1"]).1 ∨
      "TAL1" ∈ (convert_symbols_to_ensembl env9 ["TAL1"]).2 :=
  (C9_convert_symbols_covers env9 ["TAL1"]).1 "TAL1" (.head _)

/-! ## filter_genes, abundance step (tallsorts.py lines 760-766) and the
min_subtype computation of fit_classifier.create_scalers (lines 601-604)

The counts matrix of a scaling context becomes a structure with sample and
gene labels and a rational value function. -/

structure CMatrix where
  samples : List String
  genes : List String
  val : String → String → ℚ

/-- Embedding of X.sum(axis=1): the total raw count (library size) of one
sample. -/
def librarySize (X : CMatrix) (s : String) : ℚ :=
  (X.genes.map (fun g => X.val s g)).sum

/-- Embedding of conorm.cpm(X.transpose()).transpose(): each entry divided by
its sample's library size, times one million. -/
def cpmVal (X : CMatrix) (s g : String) : ℚ :=
  X.val s g / librarySize X s * 1000000

/-- Embedding of cpm_threshold = 5 / min(X.sum(axis=1)) * 1e6 (Python min
raises on an empty sequence; the getD 0 default is unreachable for a
nonempty sample list). -/
def cpm_threshold (X : CMatrix) : ℚ :=
  5 / ((pyMinQ (X.samples.map (librarySize X))).getD 0) * 1000000

/-- Embedding of to_remain: the columns whose CPM meets the threshold in at
least min_subtype samples. -/
def to_remain (X : CMatrix) (min_subtype : Nat) : List String :=
  X.genes.filter (fun g => decide (min_subtype ≤
    (X.samples.filter (fun s => decide (cpm_threshold X ≤ cpmVal X s g))).length))

/-- The abundance step of filter_genes: keep the candidate genes that lie in
to_remain. -/
def abundance_filter (X : CMatrix) (min_subtype : Nat) (candidates : List String) :
    List String :=
  candidates.filter (fun g => decide (g ∈ to_remain X min_subtype))

/-- Embedding of sum(sample_sheet.loc[X.index][label] == 1): how many samples
of the context subset are positive for the label. -/
def countPositive (sheet : SampleSheet) (subset : List String) (label : String) : Nat :=
  (subset.filter (fun s => decide (sheet.val s label = 1))).length

/-- Embedding of min_subtype = min([sum(...) for label in children_labels])
from create_scalers. -/
def min_subtype_of (sheet : SampleSheet) (subset : List String)
    (children : List String) : Option Nat :=
  pyMinN (children.map (countPositive sheet subset))

/-- Claim C5: during training feature selection for a scaling context, with m
the smallest number of positive samples among the context's child labels and
t = 5 / (minimum library size) * 1e6, a feature survives the abundance step
iff it is a candidate and its CPM is at least t in at least m samples. -/
theorem C5_abundance_step (X : CMatrix) (sheet : SampleSheet) (children : List String)
    (m : Nat) (candidates : List String) (tmin : ℚ) (g : String)
    (hm : min_subtype_of sheet X.samples children = some m)
    (hmin : pyMinQ (X.samples.map (librarySize X)) = some tmin)
    (hpos : ∀ s ∈ X.samples, 0 < librarySize X s)
    (hsub : ∀ x ∈ candidates, x ∈ X.genes) :
    g ∈ abundance_filter X m candidates ↔
      g ∈ candidates ∧
        m ≤ (X.samples.filter (fun s =>
          decide (5 / tmin * 1000000 ≤ X.val s g / librarySize X s * 1000000))).length := by
  have hth : cpm_threshold X = 5 / tmin * 1000000 := by
    rw [cpm_threshold, hmin]
    rfl
  simp only [abundance_filter, to_remain, List.mem_filter, decide_eq_true_iff,
    cpmVal, hth]
  constructor
  · rintro ⟨hc, _, hcount⟩
    exact ⟨hc, hcount⟩
  · rintro ⟨hc, hcount⟩
    exact ⟨hc, hsub g hc, hcount⟩

/-- Context matrix for the C5 witness: one sample, one gene, raw count 10. -/
def X5 : CMatrix :=
  { samples := ["s1"], genes := ["g1"], val := fun _ _ => 10 }

/-- Sheet for the C5 witness: the single sample is positive for the single
child label. -/
def sheet5 : SampleSheet :=
  { index := ["s1"], columns := ["A"], val := fun _ _ => 1 }

/-- Claim C5 witness: with m = 1 and minimum library size 10, gene g1 (CPM
1e6 against threshold 5e5 in the one sample) survives the abundance step. -/
theorem C5_abundance_step_witness : "g1" ∈ abundance_filter X5 1 ["g1"] := by
  refine (C5_abundance_step X5 sheet5 ["A"] 1 ["g1"] 10 "g1" (by decide) ?_ ?_
    (by decide)).mpr ⟨.head _, ?_⟩
  · simp [pyMinQ, librarySize, X5]
  · intro s _
    simp only [librarySize, X5]
    norm_num
  · have hf : (X5.samples.filter (fun s =>
        decide ((5 : ℚ) / 10 * 1000000 ≤ X5.val s "g1" / librarySize X5 s * 1000000))) =
        ["s1"] := by
      simp only [X5, librarySize]
      norm_num
    rw [hf]
    decide

/-! ## gen_logreg_params (tallsorts.py lines 705-721)

Table cells become PVal values (the pandas cell types the coercions act on);
Python truthiness decides whether a cell overrides; the param_modifiers dict
coerces; a KeyError on an unknown property or a failing coercion is an
Except.error. -/

inductive PVal
  | int (n : Int)
  | float (q : ℚ)
  | str (s : String)
  deriving DecidableEq

/-- Python truthiness of a cell value. -/
def PVal.truthy : PVal → Bool
  | .int n => decide (n ≠ 0)
  | .float q => decide (q ≠ 0)
  | .str s => decide (s ≠ "")

/-- Python int() on a cell: ints unchanged, floats truncated toward zero,
strings parsed as an integer literal (anything else raises). -/
def pyInt : PVal → Option Int
  | .int n => some n
  | .float q => some (q.num.tdiv q.den)
  | .str s => s.toInt?

/-- Digit-string value, none when empty or not all digits. -/
def digitsToNat (cs : List Char) : Option Nat :=
  if cs.isEmpty then none
  else if cs.all (fun c => c.isDigit) then
    some (cs.foldl (fun acc c => acc * 10 + (c.toNat - 48)) 0)
  else none

/-- Decimal parser for Python float() on a string: optional sign, integer
part, optional fractional part; scientific notation is not modeled (numeric
cells reach the coercion as floats, not strings). -/
def parseDecimal (s : String) : Option ℚ :=
  let signed : ℚ × String := if s.startsWith "-" then (-1, s.drop 1) else (1, s)
  match signed.2.splitOn "." with
  | [w] => (digitsToNat w.toList).map (fun n => signed.1 * (n : ℚ))
  | [w, f] =>
    match digitsToNat w.toList, digitsToNat f.toList with
    | some n, some frac =>
      some (signed.1 * ((n : ℚ) + (frac : ℚ) / ((10 : ℚ) ^ f.length)))
    | _, _ => none
  | _ => none

/-- Python float() on a cell. -/
def pyFloat : PVal → Option ℚ
  | .int n => some (n : ℚ)
  | .float q => some q
  | .str s => parseDecimal s

/-- Python str() on a cell (always succeeds). -/
def pyStr : PVal → Option String
  | .int n => some (toString n)
  | .float q => some (toString q)
  | .str s => some s

/-- Embedding of the param_modifiers dict: the coercion for each known
property; none embeds the KeyError an unknown property raises. -/
def param_modifiers (property : String) : Option (PVal → Option PVal) :=
  if property = "random_state" then some (fun v => (pyInt v).map .int)
  else if property = "max_iter" then some (fun v => (pyInt v).map .int)
  else if property = "tol" then some (fun v => (pyFloat v).map .float)
  else if property = "penalty" then some (fun v => (pyStr v).map .str)
  else if property = "solver" then some (fun v => (pyStr v).map .str)
  else if property = "C" then some (fun v => (pyFloat v).map .float)
  else if property = "class_weight" then some (fun v => (pyStr v).map .str)
  else none

/-- Embedding of default_params: C=0.2, tol=1e-4, max_iter=10000, penalty l1,
solver saga, class_weight balanced, random_state 0. -/
def default_params : List (String × PVal) :=
  [("random_state", .int 0), ("max_iter", .int 10000), ("tol", .float (mkRat 1 10000)),
   ("penalty", .str "l1"), ("solver", .str "saga"), ("C", .float (mkRat 1 5)),
   ("class_weight", .str "balanced")]

/-- Embedding of the inner for-property-in-row loop: truthy cells override
the accumulated params through the coercion, falsy cells are skipped. -/
def applyRow (row : List (String × PVal)) (params : List (String × PVal)) :
    Except String (List (String × PVal)) :=
  match row with
  | [] => .ok params
  | (prop, v) :: rest =>
    if v.truthy then
      match param_modifiers prop with
      | none => .error prop
      | some f =>
        match f v with
        | none => .error prop
        | some v2 => applyRow rest (dictSet params prop v2)
    else applyRow rest params

/-- Per-label parameters: defaults, overridden from the label's table row
when present. -/
def genForLabel (table : List (String × List (String × PVal))) (label : String) :
    Except String (List (String × PVal)) :=
  match dictLookup table label with
  | none => .ok default_params
  | some row => applyRow row default_params

def genAll (table : List (String × List (String × PVal))) :
    List String → Except String (List (String × List (String × PVal)))
  | [] => .ok []
  | l :: ls =>
    match genForLabel table l with
    | .error e => .error e
    | .ok p =>
      match genAll table ls with
      | .error e => .error e
      | .ok rest => .ok ((l, p) :: rest)

/-- Embedding of gen_logreg_params: defaults for every label when no table is
supplied, otherwise per-label defaults-with-overrides. -/
def gen_logreg_params (training_params : Option (List (String × List (String × PVal))))
    (labels : List String) : Except String (List (String × List (String × PVal))) :=
  match training_params with
  | none => .ok (labels.map (fun l => (l, default_params)))
  | some table => genAll table labels

theorem dictLookup_eq_none {β : Type} (d : List (String × β)) (k : String)
    (hk : k ∉ dictKeys d) : dictLookup d k = none := by
  induction d with
  | nil => rfl
  | cons e rest ih =>
    rw [dictLookup]
    by_cases he : e.1 = k
    · exact absurd (List.mem_map.mpr ⟨e, .head _, he⟩) hk
    · rw [if_neg he]
      exact ih (fun h => hk (by
        rcases List.mem_map.mp h with ⟨e2, he2, hee⟩
        exact List.mem_map.mpr ⟨e2, .tail _ he2, hee⟩))

theorem lookup_overwrite {β : Type} (d : List (String × β)) (k : String) (v : β)
    (hk : k ∈ dictKeys d) :
    dictLookup (d.map (fun e => if e.1 = k then (k, v) else e)) k = some v := by
  induction d with
  | nil => cases hk
  | cons e rest ih =>
    rw [List.map_cons, dictLookup]
    by_cases he : e.1 = k
    · rw [if_pos he]
      rw [if_pos (show ((k, v) : String × β).1 = k from rfl)]
    · rw [if_neg he]
      rw [if_neg he]
      apply ih
      have hk2 : k ∈ e.1 :: dictKeys rest := hk
      rcases List.mem_cons.mp hk2 with h | h
      · exact absurd h.symm he
      · exact h

theorem lookup_append_single {β : Type} (d : List (String × β)) (k : String) (v : β)
    (hk : k ∉ dictKeys d) : dictLookup (d ++ [(k, v)]) k = some v := by
  induction d with
  | nil =>
    rw [List.nil_append, dictLookup]
    exact if_pos rfl
  | cons e rest ih =>
    rw [List.cons_append, dictLookup]
    by_cases he : e.1 = k
    · exact absurd (List.mem_map.mpr ⟨e, .head _, he⟩) hk
    · rw [if_neg he]
      exact ih (fun h => hk (by
        rcases List.mem_map.mp h with ⟨e2, he2, hee⟩
        exact List.mem_map.mpr ⟨e2, .tail _ he2, hee⟩))

theorem dictLookup_dictSet_self {β : Type} (d : List (String × β)) (k : String) (v : β) :
    dictLookup (dictSet d k v) k = some v := by
  rw [dictSet]
  by_cases hany : d.any (fun e => decide (e.1 = k)) = true
  · rw [if_pos hany]
    exact lookup_overwrite d k v ((any_key_iff d k).mp hany)
  · rw [if_neg hany]
    exact lookup_append_single d k v (fun hk => hany ((any_key_iff d k).mpr hk))

theorem lookup_map_ne {β : Type} (d : List (String × β)) (k : String) (v : β)
    (k2 : String) (hne : k2 ≠ k) :
    dictLookup (d.map (fun e => if e.1 = k then (k, v) else e)) k2 = dictLookup d k2 := by
  induction d with
  | nil => rfl
  | cons e rest ih =>
    rw [List.map_cons, dictLookup, dictLookup]
    by_cases he : e.1 = k
    · rw [if_pos he]
      rw [if_neg (show ¬ ((k, v) : String × β).1 = k2 from fun h => hne h.symm),
        if_neg (fun h : e.1 = k2 => hne (he ▸ h).symm)]
      exact ih
    · rw [if_neg he]
      by_cases he2 : e.1 = k2
      · rw [if_pos he2, if_pos he2]
      · rw [if_neg he2, if_neg he2]
        exact ih

theorem lookup_append_single_ne {β : Type} (d : List (String × β)) (k : String) (v : β)
    (k2 : String) (hne : k2 ≠ k) :
    dictLookup (d ++ [(k, v)]) k2 = dictLookup d k2 := by
  induction d with
  | nil =>
    rw [List.nil_append, dictLookup, dictLookup]
    exact if_neg (fun h => hne h.symm)
  | cons e rest ih =>
    rw [List.cons_append, dictLookup, dictLookup]
    by_cases he2 : e.1 = k2
    · rw [if_pos he2, if_pos he2]
    · rw [if_neg he2, if_neg he2]
      exact ih

theorem dictLookup_dictSet_ne {β : Type} (d : List (String × β)) (k : String) (v : β)
    (k2 : String) (hne : k2 ≠ k) :
    dictLookup (dictSet d k v) k2 = dictLookup d k2 := by
  rw [dictSet]
  by_cases hany : d.any (fun e => decide (e.1 = k)) = true
  · rw [if_pos hany]
    exact lookup_map_ne d k v k2 hne
  · rw [if_neg hany]
    exact lookup_append_single_ne d k v k2 hne

theorem applyRow_spec :
    ∀ (row : List (String × PVal)) (params p : List (String × PVal)),
      (dictKeys row).Nodup → applyRow row params = .ok p →
      ∀ prop : String,
        (dictLookup row prop = none → dictLookup p prop = dictLookup params prop) ∧
        (∀ v, dictLookup row prop = some v → v.truthy = false →
          dictLookup p prop = dictLookup params prop) ∧
        (∀ v f v2, dictLookup row prop = some v → v.truthy = true →
          param_modifiers prop = some f → f v = some v2 →
          dictLookup p prop = some v2) := by
  intro row
  induction row with
  | nil =>
    intro params p _ hok prop
    have hp : params = p := Except.ok.inj hok
    subst hp
    exact ⟨fun _ => rfl, fun v hv _ => Option.noConfusion hv,
      fun v f v2 hv _ _ _ => Option.noConfusion hv⟩
  | cons e rest ih =>
    intro params p hnd hok prop
    obtain ⟨q, w⟩ := e
    have hndr : (dictKeys rest).Nodup := (List.nodup_cons.mp (by simpa [dictKeys] using hnd)).2
    have hqrest : q ∉ dictKeys rest := (List.nodup_cons.mp (by simpa [dictKeys] using hnd)).1
    rw [applyRow] at hok
    by_cases hw : w.truthy = true
    · rw [if_pos hw] at hok
      cases hf : param_modifiers q with
      | none =>
        rw [hf] at hok
        exact Except.noConfusion hok
      | some f =>
        rw [hf] at hok
        have hok2 : (match f w with
            | none => Except.error q
            | some v2 => applyRow rest (dictSet params q v2)) = Except.ok p := hok
        cases hfv : f w with
        | none =>
          rw [hfv] at hok2
          exact Except.noConfusion hok2
        | some v2 =>
          rw [hfv] at hok2
          have hok3 : applyRow rest (dictSet params q v2) = Except.ok p := hok2
          obtain ⟨ih1, ih2, ih3⟩ := ih (dictSet params q v2) p hndr hok3 prop
          by_cases hpq : prop = q
          · subst hpq
            have hhead : dictLookup ((prop, w) :: rest) prop = some w := by
              rw [dictLookup]; exact if_pos rfl
            refine ⟨?_, ?_, ?_⟩
            · intro h0
              rw [hhead] at h0
              exact Option.noConfusion h0
            · intro v hv hvf
              rw [hhead] at hv
              have hvw : w = v := Option.some.inj hv
              subst hvw
              rw [hw] at hvf
              exact Bool.noConfusion hvf
            · intro v f2 v3 hv _ hf2 hfv2
              rw [hhead] at hv
              have hvw : w = v := Option.some.inj hv
              subst hvw
              rw [hf] at hf2
              have hff : f = f2 := Option.some.inj hf2
              subst hff
              rw [hfv] at hfv2
              have hvv : v2 = v3 := Option.some.inj hfv2
              subst hvv
              have hrest : dictLookup rest prop = none := dictLookup_eq_none rest prop hqrest
              rw [ih1 hrest, dictLookup_dictSet_self]
          · have hskip : dictLookup ((q, w) :: rest) prop = dictLookup rest prop := by
              rw [dictLookup]; exact if_neg (fun h => hpq h.symm)
            refine ⟨?_, ?_, ?_⟩
            · intro h0
              rw [hskip] at h0
              rw [ih1 h0, dictLookup_dictSet_ne params q v2 prop hpq]
            · intro v hv hvf
              rw [hskip] at hv
              rw [ih2 v hv hvf, dictLookup_dictSet_ne params q v2 prop hpq]
            · intro v f2 v3 hv hvt hf2 hfv3
              rw [hskip] at hv
              exact ih3 v f2 v3 hv hvt hf2 hfv3
    · rw [if_neg hw] at hok
      obtain ⟨ih1, ih2, ih3⟩ := ih params p hndr hok prop
      by_cases hpq : prop = q
      · subst hpq
        have hhead : dictLookup ((prop, w) :: rest) prop = some w := by
          rw [dictLookup]; exact if_pos rfl
        have hrest : dictLookup rest prop = none := dictLookup_eq_none rest prop hqrest
        refine ⟨?_, ?_, ?_⟩
        · intro h0
          rw [hhead] at h0
          exact Option.noConfusion h0
        · intro v hv _
          exact ih1 hrest
        · intro v f2 v3 hv hvt _ _
          rw [hhead] at hv
          have hvw : w = v := Option.some.inj hv
          subst hvw
          exact absurd hvt hw
      · have hskip : dictLookup ((q, w) :: rest) prop = dictLookup rest prop := by
          rw [dictLookup]; exact if_neg (fun h => hpq h.symm)
        refine ⟨?_, ?_, ?_⟩
        · intro h0
          rw [hskip] at h0
          exact ih1 h0
        · intro v hv hvf
          rw [hskip] at hv
          exact ih2 v hv hvf
        · intro v f2 v3 hv hvt hf2 hfv3
          rw [hskip] at hv
          exact ih3 v f2 v3 hv hvt hf2 hfv3

theorem genAll_lookup (table : List (String × List (String × PVal))) :
    ∀ (labels : List String) (res : List (String × List (String × PVal))) (label : String),
      genAll table labels = .ok res → label ∈ labels →
      ∃ p, dictLookup res label = some p ∧ genForLabel table label = .ok p := by
  intro labels
  induction labels with
  | nil =>
    intro res label _ hmem
    cases hmem
  | cons l ls ih =>
    intro res label hok hmem
    rw [genAll] at hok
    cases hg : genForLabel table l with
    | error e =>
      rw [hg] at hok
      exact Except.noConfusion hok
    | ok p =>
      rw [hg] at hok
      cases hrest : genAll table ls with
      | error e =>
        rw [hrest] at hok
        exact Except.noConfusion hok
      | ok rest =>
        rw [hrest] at hok
        have hres : (l, p) :: rest = res := Except.ok.inj hok
        subst hres
        by_cases hll : l = label
        · subst hll
          exact ⟨p, by rw [dictLookup]; exact if_pos rfl, hg⟩
        · have hmem2 : label ∈ ls := by
            rcases List.mem_cons.mp hmem with h | h
            · exact absurd h.symm hll
            · exact h
          obtain ⟨p2, hp2, hg2⟩ := ih rest label hrest hmem2
          exact ⟨p2, by rw [dictLookup, if_neg hll]; exact hp2, hg2⟩

theorem map_default_lookup (labels : List String) (label : String)
    (hmem : label ∈ labels) :
    dictLookup (labels.map (fun l => (l, default_params))) label = some default_params := by
  induction labels with
  | nil => cases hmem
  | cons l ls ih =>
    rw [List.map_cons, dictLookup]
    by_cases hll : l = label
    · exact if_pos hll
    · rw [if_neg hll]
      exact ih (by
        rcases List.mem_cons.mp hmem with h | h
        · exact absurd h.symm hll
        · exact h)

/-- Claim C6: for every hierarchy label, the logistic-regression parameters
equal the defaults when no parameter table is supplied or the label has no
row in it; when a row exists, each truthy property overrides the default
through its type coercion, and each absent or falsy property falls back to
the default. -/
theorem C6_gen_logreg_params
    (training_params : Option (List (String × List (String × PVal))))
    (labels : List String) (res : List (String × List (String × PVal)))
    (label : String) (hmem : label ∈ labels)
    (hok : gen_logreg_params training_params labels = .ok res) :
    (training_params = none → dictLookup res label = some default_params) ∧
      (∀ table, training_params = some table → dictLookup table label = none →
        dictLookup res label = some default_params) ∧
      (∀ table row p, training_params = some table →
        dictLookup table label = some row → (dictKeys row).Nodup →
        dictLookup res label = some p →
        ∀ prop : String,
          ((dictLookup row prop = none ∨
              ∃ v, dictLookup row prop = some v ∧ v.truthy = false) →
            dictLookup p prop = dictLookup default_params prop) ∧
          (∀ v f v2, dictLookup row prop = some v → v.truthy = true →
            param_modifiers prop = some f → f v = some v2 →
            dictLookup p prop = some v2)) := by
  refine ⟨?_, ?_, ?_⟩
  · intro h
    subst h
    rw [gen_logreg_params] at hok
    have hres : labels.map (fun l => (l, default_params)) = res := Except.ok.inj hok
    subst hres
    exact map_default_lookup labels label hmem
  · intro table h hnone
    subst h
    rw [gen_logreg_params] at hok
    obtain ⟨p, hp, hg⟩ := genAll_lookup table labels res label hok hmem
    rw [genForLabel, hnone] at hg
    have hpd : default_params = p := Except.ok.inj hg
    subst hpd
    exact hp
  · intro table row p h hrow hnd hpl prop
    subst h
    rw [gen_logreg_params] at hok
    obtain ⟨p2, hp2, hg⟩ := genAll_lookup table labels res label hok hmem
    rw [hp2] at hpl
    have hpp : p2 = p := Option.some.inj hpl
    subst hpp
    rw [genForLabel, hrow] at hg
    obtain ⟨a1, a2, a3⟩ := applyRow_spec row default_params p2 hnd hg prop
    refine ⟨?_, a3⟩
    rintro (h0 | ⟨v, hv, hvf⟩)
    · exact a1 h0
    · exact a2 v hv hvf

/-- Parameter table for the C6 witness: label A overrides C with 0.5 and
carries a falsy solver cell. -/
def table6 : List (String × List (String × PVal)) :=
  [("A", [("C", PVal.float (mkRat 1 2)), ("solver", PVal.str "")])]

/-- Expected parameters of label A for the C6 witness: defaults with C
overridden. -/
def paramsA6 : List (String × PVal) :=
  [("random_state", .int 0), ("max_iter", .int 10000), ("tol", .float (mkRat 1 10000)),
   ("penalty", .str "l1"), ("solver", .str "saga"), ("C", .float (mkRat 1 2)),
   ("class_weight", .str "balanced")]

/-- Result of gen_logreg_params on the C6 witness input. -/
def res6 : List (String × List (String × PVal)) :=
  [("A", paramsA6), ("B", default_params)]

/-- Claim C6 witness: on the concrete table, the truthy C cell overrides the
default through the float coercion and the falsy solver cell falls back to
the default. -/
theorem C6_gen_logreg_params_witness :
    dictLookup paramsA6 "C" = some (PVal.float (mkRat 1 2)) ∧
      dictLookup paramsA6 "solver" = some (PVal.str "saga") := by
  obtain ⟨-, -, h3⟩ := C6_gen_logreg_params (some table6) ["A", "B"] res6 "A"
    (.head _) (by decide)
  have hA := h3 table6 [("C", PVal.float (mkRat 1 2)), ("solver", PVal.str "")]
    paramsA6 rfl (by decide) (by decide) (by decide)
  constructor
  · exact (hA "C").2 (PVal.float (mkRat 1 2)) (fun v => (pyFloat v).map PVal.float)
      (PVal.float (mkRat 1 2)) (by decide) (by decide) rfl rfl
  · have hs := (hA "solver").1 (Or.inr ⟨PVal.str "", by decide, by decide⟩)
    rw [hs]
    decide

end TALLSortsProof
